import Mathlib

/-!
Verification development for the BrickBuilder phase0 core: the identifier
resolution engine (phase0_backend/scripts/attach_ldraw_matches.py), the
geometry-file index builder (build_ldraw_index.py) and the LDraw geometry
expander (ldraw_expand.py).

Conventions of the shallow embedding:
* Python floats are modelled as exact rationals; the claims under study are
  about algorithmic structure (tier order, transform composition, bounds),
  not about rounding.
* Python dicts keyed by strings are modelled as association lists with
  first-key lookup and in-place overwrite on update, which is observationally
  the same mapping.
* Python str.lower() / str.strip() / str.replace(c1, c2) are modelled
  character-wise on the underlying char list (the identifiers and stems in
  play are ASCII).
* File contents are modelled as lists of lines, a line being the list of
  whitespace tokens produced by raw.strip().split(); each token carries its
  text together with the result of Python float() on that text (some q when
  float(text) = q, none when float() raises ValueError).  Index records in
  this pipeline are always non-empty dicts, so Python truthiness of a record
  is modelled by Option.
-/

/-- Python str.lower(), character-wise. -/
def strLower (s : String) : String := String.mk (s.data.map Char.toLower)

/-- Python str.strip(): drop leading and trailing whitespace. -/
def trimChars (l : List Char) : List Char :=
  ((l.dropWhile Char.isWhitespace).reverse.dropWhile Char.isWhitespace).reverse

def strStrip (s : String) : String := String.mk (trimChars s.data)

/-- Python s.replace(a, b) for single-character a and b. -/
def strReplace1 (s : String) (a b : Char) : String :=
  String.mk (s.data.map (fun c => if c = a then b else c))

/-- Index record, one per indexed geometry file, with the exact fields written
by build_ldraw_index.py. -/
structure GeomRec where
  path : String
  file : String
  header_line0 : String
  ldraw_org : String
  size_bytes : Nat
  modified_ts : Int
deriving DecidableEq, Repr

/-- The LDraw index: mapping from (lowercase) stem to record, as an
association list (Python dict). -/
abbrev Index := List (String × GeomRec)

/-- First-match association lookup: Python dict .get / `in`. -/
def lookupA (idx : Index) (k : String) : Option GeomRec :=
  match idx with
  | [] => none
  | (k', v) :: rest => if k' = k then some v else lookupA rest k

/-- Character class of the collapse regex: a-z or 0-9. -/
def isLowerAlnum (c : Char) : Bool :=
  (('a' ≤ c) && (c ≤ 'z')) || (('0' ≤ c) && (c ≤ '9'))

/-- The alphanumeric-only collapse used as the last alternate form
(re.sub removing every character outside a-z0-9). -/
def alnumCollapse (s : String) : String :=
  String.mk (s.data.filter isLowerAlnum)

/-- attach_ldraw_matches.alt_forms (a generator; modelled as the list of the
four yielded forms, in yield order). -/
def alt_forms (s : String) : List String :=
  [s, strReplace1 s '-' '_', strReplace1 s '_' '-', alnumCollapse s]

/-- digits part of a variant-code suffix: one or more digits to the end. -/
def digits1 (l : List Char) : Bool :=
  !l.isEmpty && l.all (·.isDigit)

/-- Suffix-code matcher for the end-anchored regex
(c\d+|h\d+|pr\d+|ps\d+|pat\d+|cpat\d+|d\d+)$ at a fixed start position on an
already-lowercased character list: true iff the whole remaining list is one of
the seven codes followed by one or more digits.  At any one position at most
one alternative of the regex can match to the end of the string (the c and
cpat alternatives differ in their second character), so the alternation order
of the Python regex is irrelevant here. -/
def isVariantSuffix (l : List Char) : Bool :=
  match l with
  | 'c' :: 'p' :: 'a' :: 't' :: rest => digits1 rest
  | 'c' :: rest => digits1 rest
  | 'h' :: rest => digits1 rest
  | 'p' :: 'r' :: rest => digits1 rest
  | 'p' :: 's' :: rest => digits1 rest
  | 'p' :: 'a' :: 't' :: rest => digits1 rest
  | 'd' :: rest => digits1 rest
  | _ => false

/-- _SUFFIX_RX.sub("", s): Python re.sub finds the leftmost position whose
suffix matches the end-anchored pattern and deletes from there (a match always
extends to the end of the string, so at most one match exists). -/
def stripVariantSuffix (cs : List Char) : List Char :=
  match cs with
  | [] => []
  | c :: rest => if isVariantSuffix (c :: rest) then [] else c :: stripVariantSuffix rest

/-- attach_ldraw_matches.base_core: strip + lower, then delete the trailing
variant-code suffix. -/
def base_core (part_num : String) : String :=
  String.mk (stripVariantSuffix (strLower (strStrip part_num)).data)

/-- A resolution outcome: the (m, conf, reason) triple returned by the lookup
helpers and attached by main. -/
structure MatchResult where
  geometry_ref : Option GeomRec
  confidence : ℚ
  reason : Option String
deriving DecidableEq, Repr

/-- First indexed form among the alternate forms (the loop body of
try_exact_lookup). -/
def firstHit (idx : Index) : List String → Option GeomRec
  | [] => none
  | f :: fs =>
    match lookupA idx f with
    | some r => some r
    | none => firstHit idx fs

/-- attach_ldraw_matches.try_exact_lookup. -/
def try_exact_lookup (part_num : String) (idx : Index) : MatchResult :=
  match firstHit idx (alt_forms (strLower part_num)) with
  | some r => ⟨some r, 1, some "exact_or_alt"⟩
  | none => ⟨none, 0, none⟩

/-- One relationship entry of a catalog record: rel_type ("P" printed-from,
"M" modified-from, others ignored) and the parent identifier. -/
structure Hint where
  rel_type : String
  parent : String
deriving DecidableEq, Repr

/-- The hint loop of try_parent_geometry: first P or M hint whose parent
passes the exact-or-alternate lookup. -/
def firstParentHit (idx : Index) : List Hint → Option GeomRec
  | [] => none
  | h :: hs =>
    if h.rel_type = "P" ∨ h.rel_type = "M" then
      match (try_exact_lookup (strLower h.parent) idx).geometry_ref with
      | some r => some r
      | none => firstParentHit idx hs
    else firstParentHit idx hs

/-- attach_ldraw_matches.try_parent_geometry: hints first, then the base-core
fallback; the Python guard "if core and core != part_num.lower()" requires the
stripped core to be non-empty (truthy) and to differ from the lowercased
original. -/
def try_parent_geometry (hints : List Hint) (part_num : String) (idx : Index) :
    MatchResult :=
  match firstParentHit idx hints with
  | some r => ⟨some r, 9/10, some "parent_geometry"⟩
  | none =>
    let core := base_core part_num
    if core ≠ "" ∧ core ≠ strLower part_num then
      match (try_exact_lookup core idx).geometry_ref with
      | some r => ⟨some r, 17/20, some "base_core"⟩
      | none => ⟨none, 0, none⟩
    else ⟨none, 0, none⟩

/-- The per-record resolution logic of attach_ldraw_matches.main: pass 1 exact
or alternate, pass 2 parent/base. -/
def resolve_part (part_num : String) (hints : List Hint) (idx : Index) :
    MatchResult :=
  match try_exact_lookup part_num idx with
  | ⟨some r, c, rs⟩ => ⟨some r, c, rs⟩
  | ⟨none, _, _⟩ => try_parent_geometry hints part_num idx

/-- A 3-vector of exact coordinates. -/
structure Vec3 where
  x : ℚ
  y : ℚ
  z : ℚ
deriving DecidableEq, Repr

/-- A 4x4 affine transform matrix (numpy array of ldraw_expand), row major. -/
structure Mat4 where
  m00 : ℚ
  m01 : ℚ
  m02 : ℚ
  m03 : ℚ
  m10 : ℚ
  m11 : ℚ
  m12 : ℚ
  m13 : ℚ
  m20 : ℚ
  m21 : ℚ
  m22 : ℚ
  m23 : ℚ
  m30 : ℚ
  m31 : ℚ
  m32 : ℚ
  m33 : ℚ
deriving DecidableEq, Repr

/-- np.eye(4). -/
def idM : Mat4 := ⟨1,0,0,0, 0,1,0,0, 0,0,1,0, 0,0,0,1⟩

/-- numpy matrix product A @ B for 4x4 matrices. -/
def mulM (A B : Mat4) : Mat4 :=
  ⟨A.m00*B.m00 + A.m01*B.m10 + A.m02*B.m20 + A.m03*B.m30,
   A.m00*B.m01 + A.m01*B.m11 + A.m02*B.m21 + A.m03*B.m31,
   A.m00*B.m02 + A.m01*B.m12 + A.m02*B.m22 + A.m03*B.m32,
   A.m00*B.m03 + A.m01*B.m13 + A.m02*B.m23 + A.m03*B.m33,
   A.m10*B.m00 + A.m11*B.m10 + A.m12*B.m20 + A.m13*B.m30,
   A.m10*B.m01 + A.m11*B.m11 + A.m12*B.m21 + A.m13*B.m31,
   A.m10*B.m02 + A.m11*B.m12 + A.m12*B.m22 + A.m13*B.m32,
   A.m10*B.m03 + A.m11*B.m13 + A.m12*B.m23 + A.m13*B.m33,
   A.m20*B.m00 + A.m21*B.m10 + A.m22*B.m20 + A.m23*B.m30,
   A.m20*B.m01 + A.m21*B.m11 + A.m22*B.m21 + A.m23*B.m31,
   A.m20*B.m02 + A.m21*B.m12 + A.m22*B.m22 + A.m23*B.m32,
   A.m20*B.m03 + A.m21*B.m13 + A.m22*B.m23 + A.m23*B.m33,
   A.m30*B.m00 + A.m31*B.m10 + A.m32*B.m20 + A.m33*B.m30,
   A.m30*B.m01 + A.m31*B.m11 + A.m32*B.m21 + A.m33*B.m31,
   A.m30*B.m02 + A.m31*B.m12 + A.m32*B.m22 + A.m33*B.m32,
   A.m30*B.m03 + A.m31*B.m13 + A.m32*B.m23 + A.m33*B.m33⟩

/-- Apply the accumulated transform to a point: append homogeneous 1, multiply,
keep the first three rows ((T_parent @ pts_h.T).T[:, :3]). -/
def applyM (T : Mat4) (v : Vec3) : Vec3 :=
  ⟨T.m00*v.x + T.m01*v.y + T.m02*v.z + T.m03,
   T.m10*v.x + T.m11*v.y + T.m12*v.z + T.m13,
   T.m20*v.x + T.m21*v.y + T.m22*v.z + T.m23⟩

/-- A matrix whose homogeneous row is (0,0,0,1). -/
def Affine (M : Mat4) : Prop :=
  M.m30 = 0 ∧ M.m31 = 0 ∧ M.m32 = 0 ∧ M.m33 = 1

instance (M : Mat4) : Decidable (Affine M) := by
  unfold Affine
  infer_instance

/-- The twelve numeric fields of an LDraw line type 1 and the 4x4 matrix the
expander builds from them (rows [a,d,g,x],[b,e,h,y],[c,f,i,z],[0,0,0,1]). -/
structure SubXf where
  a : ℚ
  b : ℚ
  c : ℚ
  d : ℚ
  e : ℚ
  f : ℚ
  g : ℚ
  h : ℚ
  i : ℚ
  x : ℚ
  y : ℚ
  z : ℚ
deriving DecidableEq, Repr

def SubXf.toMat (s : SubXf) : Mat4 :=
  ⟨s.a, s.d, s.g, s.x,
   s.b, s.e, s.h, s.y,
   s.c, s.f, s.i, s.z,
   0, 0, 0, 1⟩

/-- One triangle of the output soup. -/
structure Tri where
  p0 : Vec3
  p1 : Vec3
  p2 : Vec3
deriving DecidableEq, Repr

/-- One whitespace token of an input line: its text together with the result
of Python float() on it (none when float() raises ValueError). -/
structure Tok where
  text : String
  val : Option ℚ
deriving DecidableEq, Repr

/-- A numeric token (text irrelevant to the expander once parsed). -/
def numTok (q : ℚ) : Tok := ⟨"", some q⟩

/-- A token float() rejects (for instance a name, or a malformed number). -/
def symTok (s : String) : Tok := ⟨s, none⟩

/-- map(float, toks): all tokens parsed, or a ValueError (none). -/
def parseNums : List Tok → Option (List ℚ)
  | [] => some []
  | t :: ts =>
    match t.val with
    | none => none
    | some q => (parseNums ts).map (q :: ·)

/-- Classification of one line by LDrawExpander._walk: skipped, aborting the
current file with a ValueError, or yielding geometry in local coordinates. -/
inductive ParsedLine
  | skip
  | err
  | tri (a b c : Vec3)
  | quad (a b c d : Vec3)
  | subref (name : String) (xf : SubXf)
deriving DecidableEq, Repr

/-- The per-line branch of LDrawExpander._walk.  A raw line whose first
character is "0" and a recognized-but-unhandled type code both fall to the
skip outcome, as in the source; a recognized code with too few fields is
skipped; a fields-count-valid line whose numeric fields fail float() is a
ValueError aborting the file (err). -/
def parseLine (toks : List Tok) : ParsedLine :=
  match toks with
  | [] => .skip
  | t :: _ =>
    if t.text = "1" then
      if toks.length < 15 then .skip
      else
        match parseNums ((toks.drop 2).take 12) with
        | none => .err
        | some [a, b, c, d, e, f, g, h, i, x, y, z] =>
          match (toks.drop 14).head? with
          | some n => .subref n.text ⟨a, b, c, d, e, f, g, h, i, x, y, z⟩
          | none => .skip
        | some _ => .skip
    else if t.text = "3" then
      if toks.length < 11 then .skip
      else
        match parseNums ((toks.drop 2).take 9) with
        | none => .err
        | some [x1, y1, z1, x2, y2, z2, x3, y3, z3] =>
          .tri ⟨x1, y1, z1⟩ ⟨x2, y2, z2⟩ ⟨x3, y3, z3⟩
        | some _ => .skip
    else if t.text = "4" then
      if toks.length < 14 then .skip
      else
        match parseNums ((toks.drop 2).take 12) with
        | none => .err
        | some [x1, y1, z1, x2, y2, z2, x3, y3, z3, x4, y4, z4] =>
          .quad ⟨x1, y1, z1⟩ ⟨x2, y2, z2⟩ ⟨x3, y3, z3⟩ ⟨x4, y4, z4⟩
        | some _ => .skip
    else .skip

/-- A line of a .dat file: the token list of raw.strip().split(). -/
def Line := List Tok

/-- File contents addressed by path; a path absent from the map stands for a
file whose open() raises (FileNotFoundError or any other failure). -/
def FileSys := List (String × List (List Tok))

/-- First-match file lookup. -/
def lookupFS (fs : FileSys) (p : String) : Option (List (List Tok)) :=
  match fs with
  | [] => none
  | (k, v) :: rest => if k = p then some v else lookupFS rest p

/-- Python str.removesuffix(".dat"): drop the suffix when present. -/
def removeDatSuffix (l : List Char) : List Char :=
  if l.reverse.take 4 = ['t', 'a', 'd', '.'] then (l.reverse.drop 4).reverse else l

/-- LDrawIndex.resolve: lowercase, drop a trailing ".dat", then look up the
stem; returns the record's path. -/
def resolveIdx (idx : Index) (name : String) : Option String :=
  let key := String.mk (removeDatSuffix (strLower name).data)
  (lookupA idx key).map GeomRec.path

/-- The line loop of LDrawExpander._walk over one file's lines: triangles are
appended in line order; a sub-reference recurses through sub with the
parent-then-child product T @ T_line; a ValueError (err) aborts the file,
keeping what was already appended; everything else is skipped. -/
def walkLines (idx : Index) (sub : String → Mat4 → List Tri) :
    List (List Tok) → Mat4 → List Tri
  | [], _ => []
  | l :: ls, T =>
    match parseLine l with
    | .err => []
    | .skip => walkLines idx sub ls T
    | .tri a b c => ⟨applyM T a, applyM T b, applyM T c⟩ :: walkLines idx sub ls T
    | .quad a b c d =>
      ⟨applyM T a, applyM T b, applyM T c⟩ ::
      ⟨applyM T a, applyM T c, applyM T d⟩ :: walkLines idx sub ls T
    | .subref n xf =>
      match resolveIdx idx n with
      | some sp => sub sp (mulM T xf.toMat) ++ walkLines idx sub ls T
      | none => walkLines idx sub ls T

/-- LDrawExpander._walk, fuel formulation: fuel stands for
max_depth + 1 - depth, so the source guard "if depth > self.max_depth: return"
is the fuel-0 case and each recursive call at depth+1 decrements the fuel.
A file that cannot be opened contributes nothing (the except handlers). -/
def walkFuel (fs : FileSys) (idx : Index) : Nat → String → Mat4 → List Tri
  | 0, _, _ => []
  | fuel + 1, path, T =>
    match lookupFS fs path with
    | none => []
    | some lines => walkLines idx (fun p B => walkFuel fs idx fuel p B) lines T

/-- LDrawExpander._walk at an explicit (max_depth, depth) pair. -/
def walkFromDepth (fs : FileSys) (idx : Index) (maxDepth : Nat) (path : String)
    (T : Mat4) (depth : Nat) : List Tri :=
  walkFuel fs idx (maxDepth + 1 - depth) path T

/-- LDrawExpander.expand_to_triangles: walk the root at depth 0 with the
identity transform (the empty numpy-array special case is shape bookkeeping
only and is the empty list here). -/
def expand_to_triangles (fs : FileSys) (idx : Index) (maxDepth : Nat)
    (top_path : String) : List Tri :=
  walkFromDepth fs idx maxDepth top_path idM 0

/-- Componentwise minimum (np.min over axis 0, one step). -/
def vmin (a b : Vec3) : Vec3 := ⟨min a.x b.x, min a.y b.y, min a.z b.z⟩

/-- Componentwise maximum. -/
def vmax (a b : Vec3) : Vec3 := ⟨max a.x b.x, max a.y b.y, max a.z b.z⟩

def triVerts (t : Tri) : List Vec3 := [t.p0, t.p1, t.p2]

/-- tris_ldu.reshape(-1, 3): every vertex of every triangle, in order. -/
def allPts (tris : List Tri) : List Vec3 := tris.flatMap triVerts

/-- ldraw_expand.triangle_bounds: zero box for an empty soup, otherwise the
coordinatewise min and max over all vertices. -/
def triangle_bounds (tris : List Tri) : Vec3 × Vec3 :=
  match allPts tris with
  | [] => (⟨0, 0, 0⟩, ⟨0, 0, 0⟩)
  | p :: ps => (ps.foldl vmin p, ps.foldl vmax p)

/-- One scanned directory for build_ldraw_index.main: the .dat files directly
inside it, in glob order, as (raw stem, record assembled from the file). -/
abbrev ScanDir := List (String × GeomRec)

/-- Python dict assignment index[stem] = rec on the association-list model:
overwrite in place if the key exists, else append. -/
def upsert (idx : Index) (k : String) (v : GeomRec) : Index :=
  match idx with
  | [] => [(k, v)]
  | (k', v') :: rest =>
    if k' = k then (k, v) :: rest else (k', v') :: upsert rest k v

/-- The scan loop of build_ldraw_index.main: directories in the given order,
files within each in glob order, each upserted under its lowercased stem. -/
def buildIndex (dirs : List ScanDir) : Index :=
  dirs.foldl (fun acc dir => dir.foldl (fun a f => upsert a (strLower f.1) f.2) acc) []

/-- The last record bound to key k over a scan sequence (later wins). -/
def lastMatch (k : String) : List (String × GeomRec) → Option GeomRec
  | [] => none
  | f :: fs =>
    match lastMatch k fs with
    | some r => some r
    | none => if strLower f.1 = k then some f.2 else none

/-- The input checks at the top of attach_ldraw_matches.main: raise SystemExit
when the catalog JSONL or the LDraw index file is missing, otherwise proceed.
The two booleans are RB_IN.exists() and LDRAW_INDEX_JSON.exists(). -/
def attach_inputs_check (rb_in_exists ldraw_index_exists : Bool) :
    Except String Unit :=
  if !rb_in_exists then .error "Missing input JSONL"
  else if !ldraw_index_exists then .error "Missing LDraw index"
  else .ok ()

/-- Apply a point map to all three vertices of a triangle. -/
def mapTri (f : Vec3 → Vec3) (t : Tri) : Tri := ⟨f t.p0, f t.p1, f t.p2⟩

/-- The 4x4 matrix of a pure translation (identity linear part). -/
def translateM (t : Vec3) : Mat4 :=
  ⟨1, 0, 0, t.x,
   0, 1, 0, t.y,
   0, 0, 1, t.z,
   0, 0, 0, 1⟩

/-- Shift a point by a vector. -/
def shiftV (t : Vec3) (v : Vec3) : Vec3 := ⟨v.x + t.x, v.y + t.y, v.z + t.z⟩

/-- Componentwise comparison of points. -/
def vle (u v : Vec3) : Prop := u.x ≤ v.x ∧ u.y ≤ v.y ∧ u.z ≤ v.z

instance (u v : Vec3) : Decidable (vle u v) := by
  unfold vle
  infer_instance

/-- Concrete fixtures used by the witnesses and counterexamples below. -/
def recA : GeomRec := ⟨"a.dat", "a.dat", "0 part a", "", 10, 0⟩

def recB : GeomRec := ⟨"b.dat", "b.dat", "0 part b", "", 20, 0⟩

def idxAB : Index := [("a", recA), ("b", recB)]

/-- The spec's example triangle line: 3 16 0 0 0 1 0 0 0 1 0. -/
def triLine0 : List Tok :=
  [symTok "3", numTok 16, numTok 0, numTok 0, numTok 0, numTok 1, numTok 0,
   numTok 0, numTok 0, numTok 1, numTok 0]

/-- A second triangle line: 3 16 5 0 0 6 0 0 0 7 0. -/
def triLineR : List Tok :=
  [symTok "3", numTok 16, numTok 5, numTok 0, numTok 0, numTok 6, numTok 0,
   numTok 0, numTok 0, numTok 7, numTok 0]

/-- Sub-reference to a.dat with identity rotation and translation (0,2,0). -/
def subLineA : List Tok :=
  [symTok "1", numTok 16, numTok 1, numTok 0, numTok 0, numTok 0, numTok 1,
   numTok 0, numTok 0, numTok 0, numTok 1, numTok 0, numTok 2, numTok 0,
   symTok "a.dat"]

/-- Sub-reference to b.dat with the identity transform. -/
def subLineB : List Tok :=
  [symTok "1", numTok 16, numTok 1, numTok 0, numTok 0, numTok 0, numTok 1,
   numTok 0, numTok 0, numTok 0, numTok 1, numTok 0, numTok 0, numTok 0,
   symTok "b.dat"]

/-- Sub-reference to a name with no index entry. -/
def subLineU : List Tok :=
  [symTok "1", numTok 16, numTok 1, numTok 0, numTok 0, numTok 0, numTok 1,
   numTok 0, numTok 0, numTok 0, numTok 1, numTok 0, numTok 0, numTok 0,
   symTok "zzz.dat"]

/-- A type-3 line whose field count passes but whose fifth numeric field fails
float() (a ValueError mid-file). -/
def badTriLine : List Tok :=
  [symTok "3", numTok 16, numTok 5, numTok 5, numTok 5, symTok "oops",
   numTok 0, numTok 0, numTok 0, numTok 1, numTok 0]

/-- a.dat holds one triangle and a sub-reference to itself translated by
(0,2,0): a sub-reference cycle. -/
def fsCyc : FileSys := [("a.dat", [triLine0, subLineA])]

/-- root.dat references b.dat and then has a triangle of its own; b.dat has a
good triangle, a ValueError line, then another good triangle. -/
def fsPart : FileSys :=
  [("root.dat", [subLineB, triLineR]),
   ("b.dat", [triLine0, badTriLine, triLineR])]

/-- r.dat holds an unresolvable sub-reference followed by a triangle. -/
def fsU : FileSys := [("r.dat", [subLineU, triLineR])]

theorem vle_trans {a b c : Vec3} (h1 : vle a b) (h2 : vle b c) : vle a c :=
  ⟨le_trans h1.1 h2.1, le_trans h1.2.1 h2.2.1, le_trans h1.2.2 h2.2.2⟩

theorem foldl_min_le_mem (l : List ℚ) (a : ℚ) :
    (∀ q ∈ a :: l, l.foldl min a ≤ q) ∧ l.foldl min a ∈ a :: l := by
  induction l generalizing a with
  | nil => simp
  | cons b l ih =>
    have hb := ih (min a b)
    constructor
    · intro q hq
      rcases List.mem_cons.mp hq with rfl | hq'
      · exact le_trans (hb.1 _ (List.mem_cons_self _ _)) (min_le_left _ _)
      rcases List.mem_cons.mp hq' with rfl | hq''
      · exact le_trans (hb.1 _ (List.mem_cons_self _ _)) (min_le_right _ _)
      · exact hb.1 _ (List.mem_cons_of_mem _ hq'')
    · rcases List.mem_cons.mp hb.2 with he | hm
      · rcases min_choice a b with h | h
        · exact List.mem_cons.mpr (Or.inl (he.trans h))
        · exact List.mem_cons_of_mem _ (List.mem_cons.mpr (Or.inl (he.trans h)))
      · exact List.mem_cons_of_mem _ (List.mem_cons_of_mem _ hm)

theorem foldl_max_le_mem (l : List ℚ) (a : ℚ) :
    (∀ q ∈ a :: l, q ≤ l.foldl max a) ∧ l.foldl max a ∈ a :: l := by
  induction l generalizing a with
  | nil => simp
  | cons b l ih =>
    have hb := ih (max a b)
    constructor
    · intro q hq
      rcases List.mem_cons.mp hq with rfl | hq'
      · exact le_trans (le_max_left _ _) (hb.1 _ (List.mem_cons_self _ _))
      rcases List.mem_cons.mp hq' with rfl | hq''
      · exact le_trans (le_max_right _ _) (hb.1 _ (List.mem_cons_self _ _))
      · exact hb.1 _ (List.mem_cons_of_mem _ hq'')
    · rcases List.mem_cons.mp hb.2 with he | hm
      · rcases max_choice a b with h | h
        · exact List.mem_cons.mpr (Or.inl (he.trans h))
        · exact List.mem_cons_of_mem _ (List.mem_cons.mpr (Or.inl (he.trans h)))
      · exact List.mem_cons_of_mem _ (List.mem_cons_of_mem _ hm)

theorem foldl_vmin_proj (ps : List Vec3) (a : Vec3) :
    (ps.foldl vmin a).x = (ps.map Vec3.x).foldl min a.x ∧
    (ps.foldl vmin a).y = (ps.map Vec3.y).foldl min a.y ∧
    (ps.foldl vmin a).z = (ps.map Vec3.z).foldl min a.z := by
  induction ps generalizing a with
  | nil => exact ⟨rfl, rfl, rfl⟩
  | cons p ps ih =>
    simpa [vmin] using ih (vmin a p)

theorem foldl_vmax_proj (ps : List Vec3) (a : Vec3) :
    (ps.foldl vmax a).x = (ps.map Vec3.x).foldl max a.x ∧
    (ps.foldl vmax a).y = (ps.map Vec3.y).foldl max a.y ∧
    (ps.foldl vmax a).z = (ps.map Vec3.z).foldl max a.z := by
  induction ps generalizing a with
  | nil => exact ⟨rfl, rfl, rfl⟩
  | cons p ps ih =>
    simpa [vmax] using ih (vmax a p)

theorem foldl_vmin_le (ps : List Vec3) (a : Vec3) :
    ∀ p ∈ a :: ps, vle (ps.foldl vmin a) p := by
  intro p hp
  obtain ⟨hx, hy, hz⟩ := foldl_vmin_proj ps a
  refine ⟨?_, ?_, ?_⟩
  · rw [hx]
    exact (foldl_min_le_mem _ _).1 p.x
      (by rcases List.mem_cons.mp hp with rfl | hp' <;>
        simp [List.mem_map]
        <;> exact Or.inr ⟨p, hp', rfl⟩)
  · rw [hy]
    exact (foldl_min_le_mem _ _).1 p.y
      (by rcases List.mem_cons.mp hp with rfl | hp' <;>
        simp [List.mem_map]
        <;> exact Or.inr ⟨p, hp', rfl⟩)
  · rw [hz]
    exact (foldl_min_le_mem _ _).1 p.z
      (by rcases List.mem_cons.mp hp with rfl | hp' <;>
        simp [List.mem_map]
        <;> exact Or.inr ⟨p, hp', rfl⟩)

theorem foldl_vmax_ge (ps : List Vec3) (a : Vec3) :
    ∀ p ∈ a :: ps, vle p (ps.foldl vmax a) := by
  intro p hp
  obtain ⟨hx, hy, hz⟩ := foldl_vmax_proj ps a
  refine ⟨?_, ?_, ?_⟩
  · rw [hx]
    exact (foldl_max_le_mem _ _).1 p.x
      (by rcases List.mem_cons.mp hp with rfl | hp' <;>
        simp [List.mem_map]
        <;> exact Or.inr ⟨p, hp', rfl⟩)
  · rw [hy]
    exact (foldl_max_le_mem _ _).1 p.y
      (by rcases List.mem_cons.mp hp with rfl | hp' <;>
        simp [List.mem_map]
        <;> exact Or.inr ⟨p, hp', rfl⟩)
  · rw [hz]
    exact (foldl_max_le_mem _ _).1 p.z
      (by rcases List.mem_cons.mp hp with rfl | hp' <;>
        simp [List.mem_map]
        <;> exact Or.inr ⟨p, hp', rfl⟩)

theorem foldl_vmin_mem (ps : List Vec3) (a : Vec3) :
    (ps.foldl vmin a).x ∈ (a :: ps).map Vec3.x ∧
    (ps.foldl vmin a).y ∈ (a :: ps).map Vec3.y ∧
    (ps.foldl vmin a).z ∈ (a :: ps).map Vec3.z := by
  obtain ⟨hx, hy, hz⟩ := foldl_vmin_proj ps a
  refine ⟨?_, ?_, ?_⟩
  · rw [hx]
    simpa using (foldl_min_le_mem (ps.map Vec3.x) a.x).2
  · rw [hy]
    simpa using (foldl_min_le_mem (ps.map Vec3.y) a.y).2
  · rw [hz]
    simpa using (foldl_min_le_mem (ps.map Vec3.z) a.z).2

theorem foldl_vmax_mem (ps : List Vec3) (a : Vec3) :
    (ps.foldl vmax a).x ∈ (a :: ps).map Vec3.x ∧
    (ps.foldl vmax a).y ∈ (a :: ps).map Vec3.y ∧
    (ps.foldl vmax a).z ∈ (a :: ps).map Vec3.z := by
  obtain ⟨hx, hy, hz⟩ := foldl_vmax_proj ps a
  refine ⟨?_, ?_, ?_⟩
  · rw [hx]
    simpa using (foldl_max_le_mem (ps.map Vec3.x) a.x).2
  · rw [hy]
    simpa using (foldl_max_le_mem (ps.map Vec3.y) a.y).2
  · rw [hz]
    simpa using (foldl_max_le_mem (ps.map Vec3.z) a.z).2

/-- C9: Bounds of the empty triangle soup is the zero box; for every non-empty
soup it returns the coordinate-wise minimum and maximum over every vertex of
every triangle (each bound component is a bound for all vertices and is
attained by some vertex); in particular for the single triangle
(0,0,0),(1,0,0),(0,1,0) it returns min=(0,0,0) and max=(1,1,0). -/
theorem bounds_correct :
    triangle_bounds [] = (⟨0, 0, 0⟩, ⟨0, 0, 0⟩) ∧
    (∀ tris : List Tri, tris ≠ [] →
      (∀ p ∈ allPts tris,
        vle (triangle_bounds tris).1 p ∧ vle p (triangle_bounds tris).2) ∧
      ((triangle_bounds tris).1.x ∈ (allPts tris).map Vec3.x ∧
       (triangle_bounds tris).1.y ∈ (allPts tris).map Vec3.y ∧
       (triangle_bounds tris).1.z ∈ (allPts tris).map Vec3.z) ∧
      ((triangle_bounds tris).2.x ∈ (allPts tris).map Vec3.x ∧
       (triangle_bounds tris).2.y ∈ (allPts tris).map Vec3.y ∧
       (triangle_bounds tris).2.z ∈ (allPts tris).map Vec3.z)) ∧
    triangle_bounds [⟨⟨0, 0, 0⟩, ⟨1, 0, 0⟩, ⟨0, 1, 0⟩⟩] = (⟨0, 0, 0⟩, ⟨1, 1, 0⟩) := by
  refine ⟨rfl, ?_, by simp [triangle_bounds, allPts, triVerts, vmin, vmax]⟩
  intro tris hne
  cases tris with
  | nil => exact absurd rfl hne
  | cons t ts =>
    have hall : allPts (t :: ts) = t.p0 :: (t.p1 :: t.p2 :: allPts ts) := by
      simp [allPts, triVerts]
    have hbounds :
        triangle_bounds (t :: ts) =
          ((t.p1 :: t.p2 :: allPts ts).foldl vmin t.p0,
           (t.p1 :: t.p2 :: allPts ts).foldl vmax t.p0) := by
      simp only [triangle_bounds, hall]
    refine ⟨?_, ?_, ?_⟩
    · intro p hp
      rw [hall] at hp
      rw [hbounds]
      exact ⟨foldl_vmin_le _ _ p hp, foldl_vmax_ge _ _ p hp⟩
    · rw [hbounds, hall]
      exact foldl_vmin_mem _ _
    · rw [hbounds, hall]
      exact foldl_vmax_mem _ _

/-- Witness for bounds_correct: the non-empty clause applied to the concrete
one-triangle soup of the spec example. -/
theorem bounds_correct_witness :
    vle (triangle_bounds [⟨⟨0, 0, 0⟩, ⟨1, 0, 0⟩, ⟨0, 1, 0⟩⟩]).1 ⟨1, 0, 0⟩ ∧
    vle (⟨1, 0, 0⟩ : Vec3) (triangle_bounds [⟨⟨0, 0, 0⟩, ⟨1, 0, 0⟩, ⟨0, 1, 0⟩⟩]).2 :=
  (bounds_correct.2.1 [⟨⟨0, 0, 0⟩, ⟨1, 0, 0⟩, ⟨0, 1, 0⟩⟩] (by simp)).1
    ⟨1, 0, 0⟩ (by simp [allPts, triVerts])

/-- C5: expansion terminates on every input file graph, including cyclic ones:
the depth guard (depth > max_depth, i.e. zero remaining fuel) stops descent
with no output, and on the concrete self-referencing file a.dat the expansion
returns a finite soup (three copies of the triangle, one per allowed depth,
each shifted by the accumulated translation). -/
theorem expansion_terminates :
    (∀ (fs : FileSys) (idx : Index) (maxDepth : Nat) (path : String) (T : Mat4)
      (depth : Nat), maxDepth < depth → walkFromDepth fs idx maxDepth path T depth = []) ∧
    expand_to_triangles fsCyc idxAB 2 "a.dat" =
      [⟨⟨0, 0, 0⟩, ⟨1, 0, 0⟩, ⟨0, 1, 0⟩⟩,
       ⟨⟨0, 2, 0⟩, ⟨1, 2, 0⟩, ⟨0, 3, 0⟩⟩,
       ⟨⟨0, 4, 0⟩, ⟨1, 4, 0⟩, ⟨0, 5, 0⟩⟩] := by
  constructor
  · intro fs idx maxDepth path T depth h
    have h0 : maxDepth + 1 - depth = 0 := by omega
    rw [walkFromDepth, h0]
    rfl
  · have hA : lookupFS fsCyc "a.dat" = some [triLine0, subLineA] := by decide
    have hp0 : parseLine triLine0 = .tri ⟨0, 0, 0⟩ ⟨1, 0, 0⟩ ⟨0, 1, 0⟩ := by decide
    have hps : parseLine subLineA =
        .subref "a.dat" ⟨1, 0, 0, 0, 1, 0, 0, 0, 1, 0, 2, 0⟩ := by decide
    have hr : resolveIdx idxAB "a.dat" = some "a.dat" := by decide
    norm_num [expand_to_triangles, walkFromDepth, walkFuel, walkLines, hA, hp0,
      hps, hr, idM, applyM, mulM, SubXf.toMat]

/-- Witness for expansion_terminates: the guard clause applied at depth 5 with
max_depth 2 on the cyclic file system. -/
theorem expansion_terminates_witness :
    walkFromDepth fsCyc idxAB 2 "a.dat" idM 5 = [] :=
  expansion_terminates.1 fsCyc idxAB 2 "a.dat" idM 5 (by decide)

/-- C4: a well-formed quad line (type 4 with its 12 numeric fields) parses to
the quad of its four points, and expansion appends exactly two triangles built
from the transformed points with vertex index triples (0,1,2) and (0,2,3), in
that order, before continuing with the remaining lines. -/
theorem quad_decomposition (idx : Index) (sub : String → Mat4 → List Tri)
    (T : Mat4) (w cv : Option ℚ) (cs : String)
    (s1 s2 s3 s4 s5 s6 s7 s8 s9 s10 s11 s12 : String)
    (n1 n2 n3 n4 n5 n6 n7 n8 n9 n10 n11 n12 : ℚ) (ls : List (List Tok)) :
    parseLine (⟨"4", w⟩ :: ⟨cs, cv⟩ ::
        [⟨s1, some n1⟩, ⟨s2, some n2⟩, ⟨s3, some n3⟩, ⟨s4, some n4⟩,
         ⟨s5, some n5⟩, ⟨s6, some n6⟩, ⟨s7, some n7⟩, ⟨s8, some n8⟩,
         ⟨s9, some n9⟩, ⟨s10, some n10⟩, ⟨s11, some n11⟩, ⟨s12, some n12⟩]) =
      .quad ⟨n1, n2, n3⟩ ⟨n4, n5, n6⟩ ⟨n7, n8, n9⟩ ⟨n10, n11, n12⟩ ∧
    walkLines idx sub
        ((⟨"4", w⟩ :: ⟨cs, cv⟩ ::
          [⟨s1, some n1⟩, ⟨s2, some n2⟩, ⟨s3, some n3⟩, ⟨s4, some n4⟩,
           ⟨s5, some n5⟩, ⟨s6, some n6⟩, ⟨s7, some n7⟩, ⟨s8, some n8⟩,
           ⟨s9, some n9⟩, ⟨s10, some n10⟩, ⟨s11, some n11⟩, ⟨s12, some n12⟩]) :: ls) T =
      ⟨applyM T ⟨n1, n2, n3⟩, applyM T ⟨n4, n5, n6⟩, applyM T ⟨n7, n8, n9⟩⟩ ::
      ⟨applyM T ⟨n1, n2, n3⟩, applyM T ⟨n7, n8, n9⟩, applyM T ⟨n10, n11, n12⟩⟩ ::
      walkLines idx sub ls T := by
  constructor
  · simp [parseLine, parseNums]
  · simp [walkLines, parseLine, parseNums]

/-- C10: a ValueError in the middle of a file (a line whose field count passes
but whose numeric parse fails) stops that file at the failing line while every
triangle already appended is kept, and the overall expansion returns normally;
concretely, b.dat contributes its first triangle (a partial, non-zero
contribution) and the parent root.dat continues with its own line. -/
theorem midfile_error_partial :
    (∀ (idx : Index) (sub : String → Mat4 → List Tri) (pre post : List (List Tok))
      (bad : List Tok) (T : Mat4), parseLine bad = .err →
      walkLines idx sub (pre ++ bad :: post) T = walkLines idx sub pre T) ∧
    expand_to_triangles fsPart idxAB 64 "root.dat" =
      [⟨⟨0, 0, 0⟩, ⟨1, 0, 0⟩, ⟨0, 1, 0⟩⟩, ⟨⟨5, 0, 0⟩, ⟨6, 0, 0⟩, ⟨0, 7, 0⟩⟩] := by
  constructor
  · intro idx sub pre post bad T hbad
    induction pre with
    | nil =>
      simp only [List.nil_append, walkLines, hbad]
    | cons l ls ih =>
      simp only [List.cons_append, walkLines]
      cases hpl : parseLine l with
      | err => rfl
      | skip => simp only [List.append_eq, ih]
      | tri a b c => simp only [List.append_eq, ih]
      | quad a b c d => simp only [List.append_eq, ih]
      | subref n xf =>
        cases resolveIdx idx n with
        | none => simp only [List.append_eq, ih]
        | some sp => simp only [List.append_eq, ih]
  · have hroot : lookupFS fsPart "root.dat" = some [subLineB, triLineR] := by decide
    have hB : lookupFS fsPart "b.dat" = some [triLine0, badTriLine, triLineR] := by
      decide
    have hp0 : parseLine triLine0 = .tri ⟨0, 0, 0⟩ ⟨1, 0, 0⟩ ⟨0, 1, 0⟩ := by decide
    have hpr : parseLine triLineR = .tri ⟨5, 0, 0⟩ ⟨6, 0, 0⟩ ⟨0, 7, 0⟩ := by decide
    have hpb : parseLine badTriLine = .err := by decide
    have hpsB : parseLine subLineB =
        .subref "b.dat" ⟨1, 0, 0, 0, 1, 0, 0, 0, 1, 0, 0, 0⟩ := by decide
    have hr : resolveIdx idxAB "b.dat" = some "b.dat" := by decide
    norm_num [expand_to_triangles, walkFromDepth, walkFuel, walkLines, hroot, hB,
      hp0, hpr, hpb, hpsB, hr, idM, applyM, mulM, SubXf.toMat]

/-- Witness for midfile_error_partial: the mid-file clause applied to the
concrete line list good-bad-good. -/
theorem midfile_error_partial_witness :
    walkLines idxAB (fun _ _ => []) ([triLine0] ++ badTriLine :: [triLineR]) idM =
      walkLines idxAB (fun _ _ => []) [triLine0] idM :=
  midfile_error_partial.1 idxAB (fun _ _ => []) [triLine0] [triLineR] badTriLine idM
    (by decide)

/-- C6 counterexample: expand_to_triangles on a root file path that does not
exist returns the empty soup through a normal return (the except handlers of
_walk swallow the missing root like any unreadable file), instead of aborting
as a hard failure as the claim demands. -/
theorem missing_root_returns_empty_soup :
    expand_to_triangles ([] : FileSys) ([] : Index) 64 "root.dat" = [] := by
  rfl

/-- C6 amended: only the script-boundary checks surface missing inputs as hard
failures (attach main aborts iff the catalog JSONL or the index JSON is
missing); an unresolved sub-reference is skipped and expansion continues with
the following lines; a file that cannot be opened (including the root)
contributes zero geometry while expansion returns normally; concretely, the
unresolvable reference in r.dat is skipped and its sibling triangle is still
emitted. -/
theorem error_containment_amended :
    (∀ a b : Bool, attach_inputs_check a b = .ok () ↔ (a = true ∧ b = true)) ∧
    (∀ (idx : Index) (sub : String → Mat4 → List Tri) (l : List Tok)
      (ls : List (List Tok)) (T : Mat4) (n : String) (xf : SubXf),
      parseLine l = .subref n xf → resolveIdx idx n = none →
      walkLines idx sub (l :: ls) T = walkLines idx sub ls T) ∧
    (∀ (fs : FileSys) (idx : Index) (fuel : Nat) (p : String) (T : Mat4),
      lookupFS fs p = none → walkFuel fs idx fuel p T = []) ∧
    (∀ (fs : FileSys) (idx : Index) (maxDepth : Nat) (root : String),
      lookupFS fs root = none → expand_to_triangles fs idx maxDepth root = []) ∧
    expand_to_triangles fsU idxAB 64 "r.dat" = [⟨⟨5, 0, 0⟩, ⟨6, 0, 0⟩, ⟨0, 7, 0⟩⟩] := by
  refine ⟨?_, ?_, ?_, ?_, ?_⟩
  · intro a b
    cases a <;> cases b <;> simp [attach_inputs_check]
  · intro idx sub l ls T n xf hpl hres
    simp only [walkLines, hpl, hres]
  · intro fs idx fuel p T hmiss
    cases fuel with
    | zero => rfl
    | succ n => simp only [walkFuel, hmiss]
  · intro fs idx maxDepth root hmiss
    rw [expand_to_triangles, walkFromDepth]
    cases h : maxDepth + 1 - 0 with
    | zero => rfl
    | succ n => simp only [walkFuel, hmiss]
  · have hrfile : lookupFS fsU "r.dat" = some [subLineU, triLineR] := by decide
    have hpu : parseLine subLineU =
        .subref "zzz.dat" ⟨1, 0, 0, 0, 1, 0, 0, 0, 1, 0, 0, 0⟩ := by decide
    have hpr : parseLine triLineR = .tri ⟨5, 0, 0⟩ ⟨6, 0, 0⟩ ⟨0, 7, 0⟩ := by decide
    have hru : resolveIdx idxAB "zzz.dat" = none := by decide
    norm_num [expand_to_triangles, walkFromDepth, walkFuel, walkLines, hrfile,
      hpu, hpr, hru, idM, applyM]

/-- Witness for error_containment_amended: the unreadable-file clause applied
to a path absent from the concrete file system. -/
theorem error_containment_amended_witness :
    walkFuel fsU idxAB 7 "nope.dat" idM = [] :=
  error_containment_amended.2.2.1 fsU idxAB 7 "nope.dat" idM (by decide)

theorem mulM_assoc (A B C : Mat4) : mulM (mulM A B) C = mulM A (mulM B C) := by
  simp only [mulM, Mat4.mk.injEq]
  repeat' apply And.intro
  all_goals ring

theorem mulM_id_right (A : Mat4) : mulM A idM = A := by
  cases A
  simp [mulM, idM]

theorem affine_id : Affine idM := ⟨rfl, rfl, rfl, rfl⟩

theorem affine_subxf (s : SubXf) : Affine s.toMat := ⟨rfl, rfl, rfl, rfl⟩

theorem affine_translate (t : Vec3) : Affine (translateM t) := ⟨rfl, rfl, rfl, rfl⟩

theorem affine_mul {A B : Mat4} (hA : Affine A) (hB : Affine B) :
    Affine (mulM A B) := by
  obtain ⟨a0, a1, a2, a3⟩ := hA
  obtain ⟨b0, b1, b2, b3⟩ := hB
  refine ⟨?_, ?_, ?_, ?_⟩ <;> simp [mulM, a0, a1, a2, a3, b0, b1, b2, b3]

theorem applyM_mul (A : Mat4) {B : Mat4} (hB : Affine B) (v : Vec3) :
    applyM (mulM A B) v = applyM A (applyM B v) := by
  obtain ⟨b0, b1, b2, b3⟩ := hB
  simp only [mulM, applyM, Vec3.mk.injEq, b0, b1, b2, b3]
  repeat' apply And.intro
  all_goals ring

theorem applyM_translate (t : Vec3) (v : Vec3) :
    applyM (translateM t) v = shiftV t v := by
  simp only [translateM, applyM, shiftV, Vec3.mk.injEq]
  repeat' apply And.intro
  all_goals ring

theorem walkLines_mul (idx : Index) (subf : String → Mat4 → List Tri) (A : Mat4)
    (hsub : ∀ p M, Affine M →
      subf p (mulM A M) = (subf p M).map (mapTri (applyM A)))
    (lines : List (List Tok)) (T : Mat4) (hT : Affine T) :
    walkLines idx subf lines (mulM A T) =
      (walkLines idx subf lines T).map (mapTri (applyM A)) := by
  induction lines with
  | nil => rfl
  | cons l ls ih =>
    cases hpl : parseLine l with
    | err => simp [walkLines, hpl]
    | skip =>
      simp only [walkLines, hpl]
      exact ih
    | tri a b c =>
      simp only [walkLines, hpl, ih, List.map_cons]
      simp [mapTri, applyM_mul _ hT]
    | quad a b c d =>
      simp only [walkLines, hpl, ih, List.map_cons]
      simp [mapTri, applyM_mul _ hT]
    | subref n xf =>
      cases hr : resolveIdx idx n with
      | none =>
        simp only [walkLines, hpl, hr]
        exact ih
      | some sp =>
        simp only [walkLines, hpl, hr, mulM_assoc, ih, List.map_append,
          hsub sp (mulM T xf.toMat) (affine_mul hT (affine_subxf xf))]

theorem walkFuel_mul (fs : FileSys) (idx : Index) :
    ∀ (fuel : Nat) (p : String) (A T : Mat4), Affine T →
      walkFuel fs idx fuel p (mulM A T) =
        (walkFuel fs idx fuel p T).map (mapTri (applyM A)) := by
  intro fuel
  induction fuel with
  | zero => intro p A T _; rfl
  | succ n ih =>
    intro p A T hT
    simp only [walkFuel]
    cases lookupFS fs p with
    | none => rfl
    | some lines =>
      exact walkLines_mul idx _ A (fun q M hM => ih q A M hM) lines T hT

/-- C3: at a resolved sub-reference line the expander recurses with the
parent-then-child product T @ T_line (the parent's accumulated transform
premultiplies the reference transform); consequently walking under an
accumulated transform A∘T maps every triangle of the walk under T through A,
and a walk under a pure translation yields exactly the root-frame walk with
every vertex shifted by that vector. -/
theorem expansion_transform_correct :
    (∀ (idx : Index) (subf : String → Mat4 → List Tri) (l : List Tok)
      (ls : List (List Tok)) (T : Mat4) (n : String) (xf : SubXf) (sp : String),
      parseLine l = .subref n xf → resolveIdx idx n = some sp →
      walkLines idx subf (l :: ls) T =
        subf sp (mulM T xf.toMat) ++ walkLines idx subf ls T) ∧
    (∀ (fs : FileSys) (idx : Index) (fuel : Nat) (p : String) (A T : Mat4),
      Affine T →
      walkFuel fs idx fuel p (mulM A T) =
        (walkFuel fs idx fuel p T).map (mapTri (applyM A))) ∧
    (∀ (fs : FileSys) (idx : Index) (fuel : Nat) (p : String) (t : Vec3),
      walkFuel fs idx fuel p (translateM t) =
        (walkFuel fs idx fuel p idM).map (mapTri (shiftV t))) := by
  refine ⟨?_, walkFuel_mul, ?_⟩
  · intro idx subf l ls T n xf sp hpl hres
    simp only [walkLines, hpl, hres]
  · intro fs idx fuel p t
    have h := walkFuel_mul fs idx fuel p (translateM t) idM affine_id
    rw [mulM_id_right] at h
    rw [h]
    have hf : mapTri (applyM (translateM t)) = mapTri (shiftV t) := by
      funext tr
      simp [mapTri, applyM_translate]
    rw [hf]

/-- Witness for expansion_transform_correct: the premultiplication clause
applied to the cyclic fixture with A a pure translation and T the identity. -/
theorem expansion_transform_correct_witness :
    walkFuel fsCyc idxAB 2 "a.dat" (mulM (translateM ⟨1, 2, 3⟩) idM) =
      (walkFuel fsCyc idxAB 2 "a.dat" idM).map
        (mapTri (applyM (translateM ⟨1, 2, 3⟩))) :=
  expansion_transform_correct.2.1 fsCyc idxAB 2 "a.dat" (translateM ⟨1, 2, 3⟩)
    idM (by decide)

theorem firstHit_eq_none (idx : Index) (forms : List String)
    (h : ∀ f ∈ forms, lookupA idx f = none) : firstHit idx forms = none := by
  induction forms with
  | nil => rfl
  | cons f fs ih =>
    simp only [firstHit, h f (List.mem_cons_self _ _)]
    exact ih (fun g hg => h g (List.mem_cons_of_mem _ hg))

theorem firstHit_isSome (idx : Index) (forms : List String)
    (h : ∃ f ∈ forms, (lookupA idx f).isSome) : (firstHit idx forms).isSome := by
  induction forms with
  | nil => simp at h
  | cons f fs ih =>
    simp only [firstHit]
    cases hf : lookupA idx f with
    | some r => rfl
    | none =>
      apply ih
      rcases h with ⟨g, hg, hsome⟩
      rcases List.mem_cons.mp hg with rfl | hg'
      · rw [hf] at hsome
        simp at hsome
      · exact ⟨g, hg', hsome⟩

theorem firstParentHit_eq_none (idx : Index) (hints : List Hint)
    (h : ∀ x ∈ hints, ¬((x.rel_type = "P" ∨ x.rel_type = "M") ∧
      (try_exact_lookup (strLower x.parent) idx).geometry_ref ≠ none)) :
    firstParentHit idx hints = none := by
  induction hints with
  | nil => rfl
  | cons x xs ih =>
    have ih' := ih (fun y hy => h y (List.mem_cons_of_mem _ hy))
    simp only [firstParentHit]
    by_cases hk : x.rel_type = "P" ∨ x.rel_type = "M"
    · rw [if_pos hk]
      cases hg : (try_exact_lookup (strLower x.parent) idx).geometry_ref with
      | some r =>
        exact absurd ⟨hk, by simp [hg]⟩ (h x (List.mem_cons_self _ _))
      | none => exact ih'
    · rw [if_neg hk]
      exact ih'

theorem firstParentHit_first (idx : Index) (pre post : List Hint) (h : Hint)
    (r : GeomRec)
    (hpre : ∀ x ∈ pre, ¬((x.rel_type = "P" ∨ x.rel_type = "M") ∧
      (try_exact_lookup (strLower x.parent) idx).geometry_ref ≠ none))
    (hq : h.rel_type = "P" ∨ h.rel_type = "M")
    (hhit : (try_exact_lookup (strLower h.parent) idx).geometry_ref = some r) :
    firstParentHit idx (pre ++ h :: post) = some r := by
  induction pre with
  | nil =>
    simp only [List.nil_append, firstParentHit]
    rw [if_pos hq, hhit]
  | cons x xs ih =>
    have ih' := ih (fun y hy => hpre y (List.mem_cons_of_mem _ hy))
    simp only [List.cons_append, firstParentHit]
    by_cases hk : x.rel_type = "P" ∨ x.rel_type = "M"
    · rw [if_pos hk]
      cases hg : (try_exact_lookup (strLower x.parent) idx).geometry_ref with
      | some r' =>
        exact absurd ⟨hk, by simp [hg]⟩ (hpre x (List.mem_cons_self _ _))
      | none => exact ih'
    · rw [if_neg hk]
      exact ih'

/-- C1: the three tiers are tried in strict order with first success winning:
any identifier one of whose alternate forms is indexed resolves as
exact_or_alt with confidence 1; when the exact tier fails, the first
printed-from or modified-from hint whose parent passes the exact-or-alternate
lookup resolves as parent_geometry with confidence 0.90, and such an input
never yields base_core. -/
theorem resolver_tier_order :
    (∀ (pid : String) (hints : List Hint) (idx : Index),
      (∃ f ∈ alt_forms (strLower pid), (lookupA idx f).isSome) →
      ∃ r, resolve_part pid hints idx = ⟨some r, 1, some "exact_or_alt"⟩) ∧
    (∀ (pid : String) (pre post : List Hint) (h : Hint) (idx : Index)
      (r : GeomRec),
      (∀ f ∈ alt_forms (strLower pid), lookupA idx f = none) →
      (∀ x ∈ pre, ¬((x.rel_type = "P" ∨ x.rel_type = "M") ∧
        (try_exact_lookup (strLower x.parent) idx).geometry_ref ≠ none)) →
      (h.rel_type = "P" ∨ h.rel_type = "M") →
      (try_exact_lookup (strLower h.parent) idx).geometry_ref = some r →
      resolve_part pid (pre ++ h :: post) idx =
        ⟨some r, 9/10, some "parent_geometry"⟩ ∧
      (resolve_part pid (pre ++ h :: post) idx).reason ≠ some "base_core") := by
  constructor
  · intro pid hints idx hex
    have h1 := firstHit_isSome idx (alt_forms (strLower pid)) hex
    cases hh : firstHit idx (alt_forms (strLower pid)) with
    | none => rw [hh] at h1; simp at h1
    | some r =>
      exact ⟨r, by simp [resolve_part, try_exact_lookup, hh]⟩
  · intro pid pre post h idx r hexact hpre hq hhit
    have hnone := firstHit_eq_none idx (alt_forms (strLower pid)) hexact
    have hfp := firstParentHit_first idx pre post h r hpre hq hhit
    have hres : resolve_part pid (pre ++ h :: post) idx =
        ⟨some r, 9/10, some "parent_geometry"⟩ := by
      simp [resolve_part, try_exact_lookup, try_parent_geometry, hnone, hfp]
    refine ⟨hres, ?_⟩
    rw [hres]
    simp

/-- Witness for resolver_tier_order: an identifier absent from the index, one
non-P/M hint, then a modified-from hint whose parent is indexed. -/
theorem resolver_tier_order_witness :
    resolve_part "xxx" ([⟨"X", "a"⟩] ++ ⟨"M", "A"⟩ :: []) idxAB =
      ⟨some recA, 9/10, some "parent_geometry"⟩ ∧
    (resolve_part "xxx" ([⟨"X", "a"⟩] ++ ⟨"M", "A"⟩ :: []) idxAB).reason ≠
      some "base_core" :=
  resolver_tier_order.2 "xxx" [⟨"X", "a"⟩] [] ⟨"M", "A"⟩ idxAB recA
    (by decide) (by decide) (by decide) (by decide)

/-- C7: the MatchResult invariant: reason is none iff the geometry reference
is absent iff the confidence is 0; when a match exists the confidence is the
fixed constant of its reason (1, 0.90, 0.85); and an identifier matching no
tier resolves, without any error, to reason none, confidence 0, no
reference (resolve_part is a total function). -/
theorem match_result_invariant :
    ∀ (pid : String) (hints : List Hint) (idx : Index),
      ((resolve_part pid hints idx).reason = none ↔
        (resolve_part pid hints idx).geometry_ref = none) ∧
      ((resolve_part pid hints idx).reason = none ↔
        (resolve_part pid hints idx).confidence = 0) ∧
      ((resolve_part pid hints idx).reason = some "exact_or_alt" →
        (resolve_part pid hints idx).confidence = 1) ∧
      ((resolve_part pid hints idx).reason = some "parent_geometry" →
        (resolve_part pid hints idx).confidence = 9/10) ∧
      ((resolve_part pid hints idx).reason = some "base_core" →
        (resolve_part pid hints idx).confidence = 17/20) ∧
      ((∀ f ∈ alt_forms (strLower pid), lookupA idx f = none) →
        (∀ x ∈ hints, ¬((x.rel_type = "P" ∨ x.rel_type = "M") ∧
          (try_exact_lookup (strLower x.parent) idx).geometry_ref ≠ none)) →
        ¬(base_core pid ≠ "" ∧ base_core pid ≠ strLower pid ∧
          (try_exact_lookup (base_core pid) idx).geometry_ref ≠ none) →
        resolve_part pid hints idx = ⟨none, 0, none⟩) := by
  intro pid hints idx
  have hshape : resolve_part pid hints idx = ⟨none, 0, none⟩ ∨
      (∃ r, resolve_part pid hints idx = ⟨some r, 1, some "exact_or_alt"⟩) ∨
      (∃ r, resolve_part pid hints idx = ⟨some r, 9/10, some "parent_geometry"⟩) ∨
      (∃ r, resolve_part pid hints idx = ⟨some r, 17/20, some "base_core"⟩) := by
    cases hh : firstHit idx (alt_forms (strLower pid)) with
    | some r =>
      exact Or.inr (Or.inl ⟨r, by simp [resolve_part, try_exact_lookup, hh]⟩)
    | none =>
      have h1 : try_exact_lookup pid idx = ⟨none, 0, none⟩ := by
        simp [try_exact_lookup, hh]
      cases hp : firstParentHit idx hints with
      | some r =>
        exact Or.inr (Or.inr (Or.inl ⟨r,
          by simp [resolve_part, try_parent_geometry, h1, hp]⟩))
      | none =>
        by_cases hc : base_core pid ≠ "" ∧ base_core pid ≠ strLower pid
        · cases hg : (try_exact_lookup (base_core pid) idx).geometry_ref with
          | some r =>
            refine Or.inr (Or.inr (Or.inr ⟨r, ?_⟩))
            simp [resolve_part, try_parent_geometry, h1, hp, if_pos hc, hg]
          | none =>
            refine Or.inl ?_
            simp [resolve_part, try_parent_geometry, h1, hp, if_pos hc, hg]
        · refine Or.inl ?_
          simp [resolve_part, try_parent_geometry, h1, hp, if_neg hc]
  refine ⟨?_, ?_, ?_, ?_, ?_, ?_⟩
  · rcases hshape with he | ⟨r, he⟩ | ⟨r, he⟩ | ⟨r, he⟩ <;> rw [he] <;> simp
  · rcases hshape with he | ⟨r, he⟩ | ⟨r, he⟩ | ⟨r, he⟩ <;> rw [he] <;> simp
  · rcases hshape with he | ⟨r, he⟩ | ⟨r, he⟩ | ⟨r, he⟩ <;> rw [he] <;> simp
  · rcases hshape with he | ⟨r, he⟩ | ⟨r, he⟩ | ⟨r, he⟩ <;> rw [he] <;> simp
  · rcases hshape with he | ⟨r, he⟩ | ⟨r, he⟩ | ⟨r, he⟩ <;> rw [he] <;> simp
  · intro hexact hhints hbase
    have hh := firstHit_eq_none idx (alt_forms (strLower pid)) hexact
    have hp := firstParentHit_eq_none idx hints hhints
    have h1 : try_exact_lookup pid idx = ⟨none, 0, none⟩ := by
      simp [try_exact_lookup, hh]
    by_cases hc : base_core pid ≠ "" ∧ base_core pid ≠ strLower pid
    · have hg : (try_exact_lookup (base_core pid) idx).geometry_ref = none := by
        by_contra hgn
        exact hbase ⟨hc.1, hc.2, hgn⟩
      simp [resolve_part, try_parent_geometry, h1, hp, if_pos hc, hg]
    · simp [resolve_part, try_parent_geometry, h1, hp, if_neg hc]

/-- Witness for match_result_invariant: the fixed-confidence clause for
exact_or_alt applied to an identifier directly indexed. -/
theorem match_result_invariant_witness :
    (resolve_part "a" [] idxAB).confidence = 1 :=
  (match_result_invariant "a" [] idxAB).2.2.1 (by decide)

theorem strMk_data (s : String) : String.mk s.data = s := rfl

theorem stripVariantSuffix_eq_self (cs : List Char)
    (h : ∀ i, isVariantSuffix (cs.drop i) = false) :
    stripVariantSuffix cs = cs := by
  induction cs with
  | nil => rfl
  | cons c rest ih =>
    have h0 : isVariantSuffix (c :: rest) = false := h 0
    simp only [stripVariantSuffix, h0, Bool.false_eq_true, if_false]
    exact congrArg (c :: ·) (ih (fun i => h (i + 1)))

theorem stripVariantSuffix_eq_take (cs : List Char) (k : Nat)
    (hk : isVariantSuffix (cs.drop k) = true)
    (hmin : ∀ j < k, isVariantSuffix (cs.drop j) = false) :
    stripVariantSuffix cs = cs.take k := by
  induction cs generalizing k with
  | nil =>
    rw [List.drop_nil] at hk
    exact absurd hk (by decide)
  | cons c rest ih =>
    cases k with
    | zero =>
      rw [List.drop_zero] at hk
      simp only [List.take_zero, stripVariantSuffix]
      rw [if_pos hk]
    | succ k' =>
      have h0 : isVariantSuffix (c :: rest) = false := hmin 0 (Nat.succ_pos _)
      simp only [stripVariantSuffix, h0, Bool.false_eq_true, if_false,
        List.take_succ_cons]
      exact congrArg (c :: ·)
        (ih k' hk (fun j hj => hmin (j + 1) (Nat.succ_lt_succ hj)))

/-- C2 counterexample: "3001B" carries no variant-code suffix at any position
(checked over every start offset of the 5-character identifier), yet
StripKnownSuffix does not return the identifier unchanged: base_core
lowercases, so it returns "3001b". -/
theorem strip_suffix_counterexample :
    ((List.range 6).all
      (fun i => !isVariantSuffix ((strLower (strStrip "3001B")).data.drop i))) = true ∧
    base_core "3001B" = "3001b" ∧ base_core "3001B" ≠ "3001B" := by
  refine ⟨by decide, by decide, by decide⟩

/-- C2 amended: StripKnownSuffix first trims whitespace and lowercases; on
that normalized form it removes exactly the longest trailing variant-code
match (the match at the least start offset, every suffix match running to the
end of the string), returning the trimmed lowercased identifier unchanged when
no such match exists; and when the exact tier and all relationship hints fail,
the stripped base is non-empty and differs from the lowercased original, and
the exact-or-alternate lookup succeeds on it, Resolve returns reason base_core
with confidence 0.85. -/
theorem strip_suffix_amended :
    (∀ s : String,
      (∀ i, isVariantSuffix ((strLower (strStrip s)).data.drop i) = false) →
      base_core s = strLower (strStrip s)) ∧
    (∀ (s : String) (k : Nat),
      isVariantSuffix ((strLower (strStrip s)).data.drop k) = true →
      (∀ j < k, isVariantSuffix ((strLower (strStrip s)).data.drop j) = false) →
      base_core s = String.mk ((strLower (strStrip s)).data.take k)) ∧
    (∀ (pid : String) (hints : List Hint) (idx : Index) (r : GeomRec),
      (∀ f ∈ alt_forms (strLower pid), lookupA idx f = none) →
      (∀ x ∈ hints, ¬((x.rel_type = "P" ∨ x.rel_type = "M") ∧
        (try_exact_lookup (strLower x.parent) idx).geometry_ref ≠ none)) →
      base_core pid ≠ "" → base_core pid ≠ strLower pid →
      (try_exact_lookup (base_core pid) idx).geometry_ref = some r →
      resolve_part pid hints idx = ⟨some r, 17/20, some "base_core"⟩) := by
  refine ⟨?_, ?_, ?_⟩
  · intro s h
    rw [base_core, stripVariantSuffix_eq_self _ h, strMk_data]
  · intro s k hk hmin
    rw [base_core, stripVariantSuffix_eq_take _ k hk hmin]
  · intro pid hints idx r hexact hhints hne hneq hhit
    have hh := firstHit_eq_none idx (alt_forms (strLower pid)) hexact
    have hp := firstParentHit_eq_none idx hints hhints
    have h1 : try_exact_lookup pid idx = ⟨none, 0, none⟩ := by
      simp [try_exact_lookup, hh]
    simp [resolve_part, try_parent_geometry, h1, hp, if_pos (And.intro hne hneq),
      hhit]

/-- Witness for strip_suffix_amended: the base_core tier applied to the
identifier "apr7", whose stripped base "a" is indexed while the exact tier and
the single non-P/M hint both fail. -/
theorem strip_suffix_amended_witness :
    resolve_part "apr7" [⟨"X", "q"⟩] idxAB = ⟨some recA, 17/20, some "base_core"⟩ :=
  strip_suffix_amended.2.2 "apr7" [⟨"X", "q"⟩] idxAB recA
    (by decide) (by decide) (by decide) (by decide) (by decide)

theorem lookupA_upsert (idx : Index) (k : String) (v : GeomRec) (k' : String) :
    lookupA (upsert idx k v) k' = if k = k' then some v else lookupA idx k' := by
  induction idx with
  | nil =>
    by_cases h : k = k' <;> simp [upsert, lookupA, h]
  | cons p rest ih =>
    obtain ⟨k0, v0⟩ := p
    by_cases h0 : k0 = k
    · subst h0
      by_cases h1 : k0 = k' <;> simp [upsert, lookupA, h1]
    · by_cases h1 : k0 = k'
      · subst h1
        have hkk : ¬k = k0 := fun he => h0 he.symm
        simp [upsert, lookupA, h0, hkk]
      · simp [upsert, lookupA, h0, h1, ih]

theorem lookupA_foldl_files (files : List (String × GeomRec)) :
    ∀ (init : Index) (k : String),
      lookupA (files.foldl (fun a f => upsert a (strLower f.1) f.2) init) k =
        match lastMatch k files with
        | some r => some r
        | none => lookupA init k := by
  induction files with
  | nil =>
    intro init k
    simp [lastMatch]
  | cons f fs ih =>
    intro init k
    simp only [List.foldl_cons, lastMatch]
    rw [ih]
    cases hl : lastMatch k fs with
    | some r => simp
    | none =>
      by_cases hk : strLower f.1 = k <;>
        simp [lookupA_upsert, hk]

theorem lastMatch_append (k : String) (xs ys : List (String × GeomRec)) :
    lastMatch k (xs ++ ys) =
      match lastMatch k ys with
      | some r => some r
      | none => lastMatch k xs := by
  induction xs with
  | nil =>
    cases h : lastMatch k ys <;> simp [h, lastMatch]
  | cons x xs ih =>
    simp only [List.cons_append, lastMatch, List.append_eq]
    rw [ih]
    cases hys : lastMatch k ys <;> cases hxs : lastMatch k xs <;>
      simp [hys, hxs]

theorem lastMatch_eq_none (k : String) (files : List (String × GeomRec))
    (h : ∀ f ∈ files, strLower f.1 ≠ k) : lastMatch k files = none := by
  induction files with
  | nil => rfl
  | cons f fs ih =>
    simp only [lastMatch, ih (fun g hg => h g (List.mem_cons_of_mem _ hg))]
    rw [if_neg (h f (List.mem_cons_self _ _))]

theorem lookupA_buildIndex (dirs : List ScanDir) (k : String) :
    lookupA (buildIndex dirs) k =
      match lastMatch k dirs.flatten with
      | some r => some r
      | none => none := by
  suffices hgen : ∀ (init : Index),
      lookupA (dirs.foldl
        (fun acc dir => dir.foldl (fun a f => upsert a (strLower f.1) f.2) acc)
        init) k =
        match lastMatch k dirs.flatten with
        | some r => some r
        | none => lookupA init k by
    rw [buildIndex, hgen []]
    cases lastMatch k dirs.flatten <;> simp [lookupA]
  induction dirs with
  | nil =>
    intro init
    simp [lastMatch]
  | cons d ds ih =>
    intro init
    simp only [List.foldl_cons, List.flatten_cons]
    rw [ih, lastMatch_append]
    cases lastMatch k ds.flatten with
    | some r => simp
    | none =>
      rw [lookupA_foldl_files]

/-- C8: index building honors later-wins override semantics: whenever an
earlier directory d1 and a later directory d2 both contain a file with
normalized stem s, d2's last record for s is what the built index maps s to,
provided no directory after d2 carries that stem. -/
theorem index_later_wins :
    ∀ (A B C : List ScanDir) (d1 d2 : ScanDir) (s : String) (r2 : GeomRec),
      (∃ f ∈ d1, strLower f.1 = s) →
      lastMatch s d2 = some r2 →
      (∀ dir ∈ C, ∀ f ∈ dir, strLower f.1 ≠ s) →
      lookupA (buildIndex (A ++ d1 :: B ++ d2 :: C)) s = some r2 := by
  intro A B C d1 d2 s r2 _ h2 hC
  rw [lookupA_buildIndex]
  have hCnone : lastMatch s C.flatten = none := by
    apply lastMatch_eq_none
    intro f hf
    rcases List.mem_flatten.mp hf with ⟨dir, hdir, hfd⟩
    exact hC dir hdir f hfd
  have hjoin : (A ++ d1 :: B ++ d2 :: C).flatten =
      (A.flatten ++ (d1 ++ B.flatten)) ++ (d2 ++ C.flatten) := by
    simp [List.flatten_append, List.flatten_cons, List.append_assoc]
  rw [hjoin, lastMatch_append, lastMatch_append, hCnone, h2]

/-- Witness for index_later_wins: two directories each holding a file with
stem x1 (one spelled with an uppercase X); the built index maps x1 to the
record from the later directory. -/
theorem index_later_wins_witness :
    lookupA (buildIndex ([] ++ [("X1", recA)] :: [] ++ [("x1", recB)] :: [])) "x1" =
      some recB :=
  index_later_wins [] [] [] [("X1", recA)] [("x1", recB)] "x1" recB
    (by exact ⟨("X1", recA), by decide, by decide⟩) (by decide) (by decide)
